import Mathlib

/-!
Verification of the arity-scan tool (src/main.rs).

The tool walks a directory tree, parses every file with extension "rs"
using tree-sitter, extracts function-like declarations together with
their parameter lists via a fixed query, counts parameters (skipping a
receiver parameter), keeps matches whose arity exceeds a threshold,
collects them in a std BinaryHeap of FnInfo (ordered by arity only), and
finally prints the heap contents followed by a summary line.

The embedding below models:
  - paths as an absoluteness flag plus a list of normal components
    (the root-dir marker of an absolute path is the flag);
  - the filesystem as a tree of nodes: readable or unreadable files,
    directories, and entries that fail during the walk (walkdir yields
    an Err for those, which main filters out with filter_map e.ok);
  - the external parser and query engine by their observable output: a
    file yields raw text plus, when the parse succeeds, the list of
    query matches, each match carrying its optional name capture and
    optional parameters capture (child node kinds and start row);
  - the BinaryHeap by its backing vector: push appends and sifts up
    using the derived Ord on FnInfo, which compares arity only; the
    for-loop over the heap iterates the backing vector in order.
    The sift-up loop is written with explicit fuel, pos itself, which
    dominates the strictly decreasing position of the sifted element.

Rust panics (the expect on a parse failure, the unwrap on stripefix of
a walked path) and io errors propagated with the question-mark operator
all abort the run before anything is printed; they are modelled as the
error case of Except, and printing happens only in the ok case.
-/

set_option linter.unusedVariables false

namespace ArityScan

/-- A filesystem path: absoluteness flag plus the list of normal
components. std Path::strip_prefix walks components; the root-dir
component of an absolute path is represented here by the flag. -/
structure RPath where
  absolute : Bool
  components : List String
deriving DecidableEq, Repr

instance : Inhabited RPath := ⟨⟨false, []⟩⟩

/-- Append one component, as walkdir does when descending into an
entry of a directory. -/
def RPath.child (p : RPath) (name : String) : RPath :=
  ⟨p.absolute, p.components ++ [name]⟩

/-- Componentwise prefix removal, as Path::strip_prefix iterates
components of base and path together. -/
def stripComponents : List String → List String → Option (List String)
  | [], p => some p
  | _ :: _, [] => none
  | b :: bs, c :: cs => if b = c then stripComponents bs cs else none

/-- Path::strip_prefix: both paths must agree on absoluteness (the
root-dir component) and the base components must be an initial segment;
the result is the remaining components, a relative path. -/
def stripRoot (base p : RPath) : Option RPath :=
  if base.absolute = p.absolute then
    (stripComponents base.components p.components).map (fun cs => RPath.mk false cs)
  else none

/-- Path display: components joined by the separator. -/
def RPath.display (p : RPath) : String :=
  let s := String.intercalate "/" p.components
  if p.absolute then "/" ++ s else s

/-- Scan of a reversed component for the piece after the last dot:
returns none when there is no dot or when the dot is the first
character of the component (hidden-file rule of Path::extension). -/
def extAfterLastDot : List Char → List Char → Option (List Char)
  | [], _ => none
  | c :: rest, acc =>
    if c = '.' then (if rest = [] then none else some acc)
    else extAfterLastDot rest (c :: acc)

/-- Path::extension of the final component. -/
def fileExtension (p : RPath) : Option String :=
  match p.components.getLast? with
  | none => none
  | some name => (extAfterLastDot name.toList.reverse []).map (fun cs => String.mk cs)

/-- The parameters capture of one query match: the kinds of the
immediate children of the parameters node, and its start row. -/
structure ParamsNode where
  childKinds : List String
  startRow : Nat
deriving DecidableEq, Repr

/-- One match of the tree-sitter query: the captured name text (the
source slice at the identifier) and the captured parameters node, each
looked up with find and therefore optional in the code. -/
structure QueryMatch where
  nameCapture : Option String
  paramsCapture : Option ParamsNode
deriving DecidableEq, Repr

/-- What the code observes of one file: the text read from disk and,
when tree-sitter produces a tree, the query matches on it. -/
structure FileData where
  text : String
  parse : Option (List QueryMatch)
deriving DecidableEq, Repr

/-- A node of the scanned filesystem: a file whose read either succeeds
with its data or fails, a directory with named children, or an entry
the walk itself cannot stat (walkdir yields Err for it). -/
inductive FSNode where
  | file (name : String) (data : Except Unit FileData)
  | broken (name : String)
  | dir (name : String) (children : List FSNode)

/-- Name of a node, used to extend the path when descending. -/
def FSNode.nodeName : FSNode → String
  | .file n _ => n
  | .broken n => n
  | .dir n _ => n

mutual
/-- walkdir rooted at path p over node n: yields the entry itself
first, then the subtree entries in order; a broken entry yields Err. -/
def walkAt (p : RPath) (n : FSNode) : List (Except Unit (RPath × FSNode)) :=
  match n with
  | .broken _ => [.error ()]
  | .file _ _ => [.ok (p, n)]
  | .dir _ children => .ok (p, n) :: walkList p children
/-- Walk of the children of a directory at path p. -/
def walkList (p : RPath) (ns : List FSNode) : List (Except Unit (RPath × FSNode)) :=
  match ns with
  | [] => []
  | c :: rest => walkAt (p.child c.nodeName) c ++ walkList p rest
end

/-- fs::read_to_string on an entry: the data of a readable file;
an error for an unreadable file or a directory. -/
def readNode : FSNode → Except Unit FileData
  | .file _ d => d
  | .broken _ => .error ()
  | .dir _ _ => .error ()

/-- The entries main iterates over: ok entries of the walk (filter_map
with e.ok) whose path extension is rs. -/
def scanned (d : RPath) (root : FSNode) : List (RPath × FSNode) :=
  ((walkAt d root).filterMap Except.toOption).filter
    (fun pr => fileExtension pr.1 == some "rs")

/-- FnInfo of the code: one flagged function. The derived Ord compares
arity only (PartialOrd and Ord are implemented on arity alone). -/
structure FnInfo where
  path : RPath
  name : String
  arity : Nat
  line : Nat
deriving DecidableEq, Repr

instance : Inhabited FnInfo := ⟨⟨default, "", 0, 0⟩⟩

/-- count_parameters of the code: fold over the immediate children of
the parameters node; a child of kind self_parameter is skipped, a child
of kind parameter adds one, every other child adds nothing. -/
def count_parameters (childKinds : List String) : Nat :=
  childKinds.foldl
    (fun count kind =>
      if kind == "self_parameter" then count
      else if kind == "parameter" then count + 1
      else count) 0

/-- Swap of two positions of the heap backing vector. -/
def lswap (l : List FnInfo) (i j : Nat) : List FnInfo :=
  let x := l.getD i default
  let y := l.getD j default
  (l.set i y).set j x

/-- The sift-up loop of BinaryHeap::push: while the element at pos
compares greater (by arity) than its parent, swap them. The first
argument is fuel bounding the number of iterations; the parent index is
strictly smaller than pos, so fuel equal to the starting pos always
suffices and the fuel-out branch is never taken with that choice. -/
def siftUpFuel : Nat → List FnInfo → Nat → List FnInfo
  | 0, l, _ => l
  | fuel + 1, l, pos =>
    if pos = 0 then l
    else if (l.getD ((pos - 1) / 2) default).arity < (l.getD pos default).arity then
      siftUpFuel fuel (lswap l pos ((pos - 1) / 2)) ((pos - 1) / 2)
    else l

/-- BinaryHeap::push: append the element to the backing vector and sift
it up from the last position. -/
def heapPush (l : List FnInfo) (x : FnInfo) : List FnInfo :=
  siftUpFuel l.length (l ++ [x]) l.length

/-- Body of the match loop of process_file for one query match: when
both captures are present, count the arity, strip the base from the
path (unwrap: failure is a panic, modelled as an error), and when arity
exceeds min_args push the record and bump the per-file count. -/
def stepMatch (base path : RPath) (min_args : Nat)
    (st : List FnInfo × Nat) (m : QueryMatch) : Except String (List FnInfo × Nat) :=
  match m.nameCapture, m.paramsCapture with
  | some name, some params =>
    let arity := count_parameters params.childKinds
    match stripRoot base path with
    | none => .error "strip panic"
    | some rel =>
      if min_args < arity then
        .ok (heapPush st.1 (FnInfo.mk rel name arity (params.startRow + 1)), st.2 + 1)
      else .ok st
  | _, _ => .ok st

/-- process_file of the code: read the file (the question-mark operator
propagates a read failure), parse it (expect panics on a parse failure,
with the file text in the message), then fold the match loop starting
from the shared bucket and a per-file count of zero. -/
def process_file (base path : RPath) (n : FSNode) (min_args : Nat)
    (bucket : List FnInfo) : Except String (List FnInfo × Nat) :=
  match readNode n with
  | .error _ => .error "io error"
  | .ok fd =>
    match fd.parse with
    | none => .error ("FAILED TO PARSE file " ++ fd.text)
    | some ms => ms.foldlM (stepMatch base path min_args) (bucket, 0)

/-- One iteration of the entry loop of main: run process_file on the
entry and add its count to the running total. -/
def stepEntry (d : RPath) (min_args : Nat) (st : List FnInfo × Nat)
    (e : RPath × FSNode) : Except String (List FnInfo × Nat) :=
  match process_file d e.1 e.2 min_args st.1 with
  | .error msg => .error msg
  | .ok (bucket, fileCount) => .ok (bucket, st.2 + fileCount)

/-- The scan phase of main: fold the entry loop over the filtered walk,
starting from an empty heap and a zero total. -/
def mainScan (d : RPath) (root : FSNode) (min_args : Nat) :
    Except String (List FnInfo × Nat) :=
  (scanned d root).foldlM (stepEntry d min_args) ([], 0)

/-- Display for FnInfo: path, line, name and arity. -/
def formatFnInfo (fi : FnInfo) : String :=
  fi.path.display ++ ":" ++ toString fi.line ++ ": fn " ++ fi.name ++ "/" ++ toString fi.arity

/-- The trailing summary println of main. -/
def summaryLine (total min_args : Nat) : String :=
  "\nFound " ++ toString total ++ " functions with more than " ++
    toString min_args ++ " arguments"

/-- main: scan, then print every heap element in backing-vector order
followed by the summary line. The printed lines exist only when the
scan did not abort. -/
def main (d : RPath) (root : FSNode) (min_args : Nat) : Except String (List String) :=
  match mainScan d root min_args with
  | .error msg => .error msg
  | .ok (bucket, total) => .ok (bucket.map formatFnInfo ++ [summaryLine total min_args])

/-- The record a match would contribute, threshold aside: defined when
both captures are present and the strip succeeds. -/
def recordFull (base path : RPath) (m : QueryMatch) : Option FnInfo :=
  match m.nameCapture, m.paramsCapture with
  | some name, some params =>
    (stripRoot base path).map
      (fun rel => FnInfo.mk rel name (count_parameters params.childKinds) (params.startRow + 1))
  | _, _ => none

/-- The record a match contributes to the report: its full record when
the counted arity exceeds min_args. -/
def keptRecord (base path : RPath) (min_args : Nat) (m : QueryMatch) : Option FnInfo :=
  match m.nameCapture, m.paramsCapture with
  | some name, some params =>
    let arity := count_parameters params.childKinds
    match stripRoot base path with
    | none => none
    | some rel =>
      if min_args < arity then
        some (FnInfo.mk rel name arity (params.startRow + 1))
      else none
  | _, _ => none

/-- All records retained from one scanned entry. -/
def fileRetained (d : RPath) (min_args : Nat) (e : RPath × FSNode) : List FnInfo :=
  match readNode e.2 with
  | .error _ => []
  | .ok fd =>
    match fd.parse with
    | none => []
    | some ms => ms.filterMap (keptRecord d e.1 min_args)

/-- All records retained from a list of scanned entries, in order. -/
def allRetained (d : RPath) (min_args : Nat) : List (RPath × FSNode) → List FnInfo
  | [] => []
  | e :: rest => fileRetained d min_args e ++ allRetained d min_args rest

/-- Modelled from the spec: the counting rule as the spec words it,
where every non-receiver parameter child of the parameter list counts
exactly one, a variadic marker included, with no other special case.
In the tree-sitter rust grammar the parameter-like child kinds beyond
the receiver are parameter and variadic_parameter. -/
def specParamCount (childKinds : List String) : Nat :=
  childKinds.countP (fun k => k == "parameter" || k == "variadic_parameter")

/-- Parent index in the implicit binary tree of the heap vector. -/
def par (i : Nat) : Nat := (i - 1) / 2

/-- Arity stored at a position of the heap vector. -/
def aOf (l : List FnInfo) (i : Nat) : Nat := (l.getD i default).arity

/-- Max-heap property of the backing vector: every element is at most
its parent, comparing by arity as the derived Ord of FnInfo does. -/
def HeapInv (l : List FnInfo) : Prop :=
  ∀ i, 0 < i → i < l.length → aOf l i ≤ aOf l (par i)

/-- Invariant of the sift-up loop: the heap property holds everywhere
except possibly at the sifted position, and the children of the sifted
position are dominated by its parent. -/
def SiftInv (l : List FnInfo) (pos : Nat) : Prop :=
  (∀ i, 0 < i → i < l.length → i ≠ pos → aOf l i ≤ aOf l (par i)) ∧
  (∀ i, i < l.length → 0 < pos → par i = pos → aOf l i ≤ aOf l (par pos))

/-! ### List access helpers -/

theorem getD_set (l : List FnInfo) (i k : Nat) (a : FnInfo) :
    (l.set i a).getD k default = if i = k ∧ i < l.length then a else l.getD k default := by
  induction l generalizing i k with
  | nil => simp
  | cons b t ih =>
    cases i with
    | zero => cases k <;> simp
    | succ n =>
      cases k with
      | zero => simp
      | succ m =>
        simp only [List.set_cons_succ, List.getD_cons_succ, ih n m, List.length_cons]
        have hiff : (n + 1 = m + 1 ∧ n + 1 < t.length + 1) ↔ (n = m ∧ n < t.length) := by omega
        simp only [hiff]

theorem set_getD_self (l : List FnInfo) (i : Nat) : l.set i (l.getD i default) = l := by
  induction l generalizing i with
  | nil => simp
  | cons b t ih =>
    cases i with
    | zero => rfl
    | succ n =>
      show b :: t.set n (t.getD n default) = b :: t
      rw [ih n]

theorem getD_append_lt (l l2 : List FnInfo) (i : Nat) (h : i < l.length) :
    (l ++ l2).getD i default = l.getD i default := by
  induction l generalizing i with
  | nil => simp at h
  | cons b t ih =>
    cases i with
    | zero => simp
    | succ n => simpa using ih n (by simpa using h)

theorem getD_zero_headD (l : List FnInfo) : l.getD 0 default = l.headD default := by
  cases l <;> simp

/-! ### Swap lemmas -/

theorem length_lswap (l : List FnInfo) (i j : Nat) : (lswap l i j).length = l.length := by
  simp [lswap]

theorem aOf_lswap (l : List FnInfo) (i j k : Nat) (hi : i < l.length) (hj : j < l.length) :
    aOf (lswap l i j) k = if k = j then aOf l i else if k = i then aOf l j else aOf l k := by
  unfold aOf lswap
  rw [getD_set, getD_set]
  rcases eq_or_ne k j with rfl | hkj
  · simp [List.length_set, hj]
  · rcases eq_or_ne k i with rfl | hki
    · simp [List.length_set, hi, Ne.symm hkj, hkj]
    · simp [Ne.symm hkj, Ne.symm hki, hkj, hki]

theorem getD_cons_set_perm (t : List FnInfo) (k : Nat) (a : FnInfo) (hk : k < t.length) :
    (t.getD k default :: t.set k a).Perm (a :: t) := by
  induction t generalizing k with
  | nil => simp at hk
  | cons b t ih =>
    cases k with
    | zero => exact List.Perm.swap a b t
    | succ m =>
      have hm : m < t.length := by simpa using hk
      have h0 : (b :: t).getD (m + 1) default :: (b :: t).set (m + 1) a
          = t.getD m default :: b :: t.set m a := by simp
      rw [h0]
      exact ((List.Perm.swap b (t.getD m default) (t.set m a)).trans
        ((ih m hm).cons b)).trans (List.Perm.swap a b t)

theorem lswap_perm (l : List FnInfo) (i j : Nat) (hi : i < l.length) (hj : j < l.length) :
    (lswap l i j).Perm l := by
  induction l generalizing i j with
  | nil => simp at hi
  | cons b t ih =>
    cases i with
    | zero =>
      cases j with
      | zero =>
        have h0 : lswap (b :: t) 0 0 = b :: t := rfl
        rw [h0]
      | succ m =>
        have hm : m < t.length := by simpa using hj
        have : lswap (b :: t) 0 (m + 1) = t.getD m default :: t.set m b := rfl
        rw [this]
        exact getD_cons_set_perm t m b hm
    | succ n =>
      have hn : n < t.length := by simpa using hi
      cases j with
      | zero =>
        have : lswap (b :: t) (n + 1) 0 = t.getD n default :: t.set n b := rfl
        rw [this]
        exact getD_cons_set_perm t n b hn
      | succ m =>
        have hm : m < t.length := by simpa using hj
        have : lswap (b :: t) (n + 1) (m + 1) = b :: lswap t n m := rfl
        rw [this]
        exact (ih n m hn hm).cons b

/-! ### Sift-up lemmas -/

theorem siftUpFuel_length (fuel : Nat) : ∀ (l : List FnInfo) (pos : Nat),
    (siftUpFuel fuel l pos).length = l.length := by
  induction fuel with
  | zero => intro l pos; rfl
  | succ fuel ih =>
    intro l pos
    rw [siftUpFuel]
    split
    · rfl
    · split
      · rw [ih, length_lswap]
      · rfl

theorem siftUpFuel_perm (fuel : Nat) : ∀ (l : List FnInfo) (pos : Nat), pos < l.length →
    (siftUpFuel fuel l pos).Perm l := by
  induction fuel with
  | zero => intro l pos _; exact List.Perm.refl l
  | succ fuel ih =>
    intro l pos hpos
    rw [siftUpFuel]
    split
    · exact List.Perm.refl l
    · rename_i hne
      split
      · have hpar : (pos - 1) / 2 < l.length := by omega
        have h1 : (pos - 1) / 2 < (lswap l pos ((pos - 1) / 2)).length := by
          rw [length_lswap]; omega
        exact (ih _ _ h1).trans (lswap_perm l pos _ hpos hpar)
      · exact List.Perm.refl l

theorem siftInv_swap (l : List FnInfo) (pos : Nat) (hpos : 0 < pos) (hlt : pos < l.length)
    (hinv : SiftInv l pos) (hgt : aOf l (par pos) < aOf l pos) :
    SiftInv (lswap l pos (par pos)) (par pos) := by
  have hprlt : par pos < pos := by unfold par; omega
  have hprlen : par pos < l.length := by omega
  have hprne : pos ≠ par pos := by omega
  have e1 : aOf (lswap l pos (par pos)) (par pos) = aOf l pos := by
    rw [aOf_lswap l pos (par pos) (par pos) hlt hprlen]; simp
  have e2 : aOf (lswap l pos (par pos)) pos = aOf l (par pos) := by
    rw [aOf_lswap l pos (par pos) pos hlt hprlen]; simp [hprne]
  have e3 : ∀ k, k ≠ par pos → k ≠ pos →
      aOf (lswap l pos (par pos)) k = aOf l k := by
    intro k h1 h2
    rw [aOf_lswap l pos (par pos) k hlt hprlen]; simp [h1, h2]
  constructor
  · intro i h0i hilen hne
    rw [length_lswap] at hilen
    rcases eq_or_ne i pos with rfl | hip
    · rw [e2, e1]
      exact le_of_lt hgt
    · rw [e3 i hne hip]
      rcases eq_or_ne (par i) (par pos) with hpp | hpp
      · rw [hpp, e1]
        have h1 : aOf l i ≤ aOf l (par i) := hinv.1 i h0i hilen hip
        rw [hpp] at h1
        exact le_trans h1 (le_of_lt hgt)
      · rcases eq_or_ne (par i) pos with hps | hps
        · rw [hps, e2]
          exact hinv.2 i hilen hpos hps
        · rw [e3 (par i) hpp hps]
          exact hinv.1 i h0i hilen hip
  · intro i hilen h0pr hpari
    rw [length_lswap] at hilen
    have e5 : par (par pos) = (par pos - 1) / 2 := rfl
    have hpp1 : par (par pos) < par pos := by rw [e5]; omega
    have hgp1 : par (par pos) ≠ par pos := by omega
    have hgp2 : par (par pos) ≠ pos := by omega
    rw [e3 (par (par pos)) hgp1 hgp2]
    have hstep : aOf l (par pos) ≤ aOf l (par (par pos)) :=
      hinv.1 (par pos) h0pr hprlen (by omega)
    rcases eq_or_ne i pos with rfl | hip
    · rw [e2]; exact hstep
    · have hipr : i ≠ par pos := by
        intro h; rw [h] at hpari; exact absurd hpari (by omega)
      rw [e3 i hipr hip]
      have h0i : 0 < i := by
        rcases Nat.eq_zero_or_pos i with rfl | h
        · rw [show par 0 = 0 from rfl] at hpari; omega
        · exact h
      have h1 : aOf l i ≤ aOf l (par i) := hinv.1 i h0i hilen hip
      rw [hpari] at h1
      exact le_trans h1 hstep

theorem siftUpFuel_heapInv (fuel : Nat) : ∀ (l : List FnInfo) (pos : Nat),
    pos ≤ fuel → pos < l.length → SiftInv l pos → HeapInv (siftUpFuel fuel l pos) := by
  induction fuel with
  | zero =>
    intro l pos hf _ hinv
    have : pos = 0 := by omega
    subst this
    intro i h0 hl
    exact hinv.1 i h0 hl (by omega)
  | succ fuel ih =>
    intro l pos hf hlen hinv
    rw [siftUpFuel]
    split
    · rename_i h0
      subst h0
      intro i h0 hl
      exact hinv.1 i h0 hl (by omega)
    · rename_i hne
      split
      · rename_i hcmp
        have hpos : 0 < pos := by omega
        have hpar : (pos - 1) / 2 = par pos := rfl
        rw [hpar]
        apply ih
        · have : par pos < pos := by unfold par; omega
          omega
        · rw [length_lswap]
          have : par pos < pos := by unfold par; omega
          omega
        · exact siftInv_swap l pos hpos hlen hinv hcmp
      · rename_i hcmp
        intro i h0 hl
        rcases eq_or_ne i pos with rfl | hip
        · exact not_lt.mp hcmp
        · exact hinv.1 i h0 hl hip

/-! ### Heap push lemmas -/

theorem siftInv_append (l : List FnInfo) (x : FnInfo) (h : HeapInv l) :
    SiftInv (l ++ [x]) l.length := by
  constructor
  · intro i h0 hl hne
    have hi : i < l.length := by simp at hl; omega
    have hpi : par i < l.length := by
      have : par i < i := by unfold par; omega
      omega
    unfold aOf
    rw [getD_append_lt l [x] i hi, getD_append_lt l [x] (par i) hpi]
    exact h i h0 hi
  · intro i hl h0 hpari
    unfold par at hpari
    simp at hl
    omega

theorem heapPush_heapInv (l : List FnInfo) (x : FnInfo) (h : HeapInv l) :
    HeapInv (heapPush l x) := by
  apply siftUpFuel_heapInv l.length (l ++ [x]) l.length (le_refl _) (by simp)
  exact siftInv_append l x h

theorem heapPush_perm (l : List FnInfo) (x : FnInfo) : (heapPush l x).Perm (l ++ [x]) :=
  siftUpFuel_perm l.length (l ++ [x]) l.length (by simp)

theorem heapPush_length (l : List FnInfo) (x : FnInfo) :
    (heapPush l x).length = l.length + 1 := by
  simp [heapPush, siftUpFuel_length]

theorem foldl_heapPush_perm (xs : List FnInfo) : ∀ (b : List FnInfo),
    (List.foldl heapPush b xs).Perm (b ++ xs) := by
  induction xs with
  | nil => intro b; simp
  | cons x xs ih =>
    intro b
    have h1 : (List.foldl heapPush (heapPush b x) xs).Perm ((heapPush b x) ++ xs) := ih _
    have h2 : ((heapPush b x) ++ xs).Perm ((b ++ [x]) ++ xs) :=
      (heapPush_perm b x).append_right xs
    have h3 : (b ++ [x]) ++ xs = b ++ x :: xs := by simp
    simpa [h3] using h1.trans h2

theorem foldl_heapPush_length (xs : List FnInfo) : ∀ (b : List FnInfo),
    (List.foldl heapPush b xs).length = b.length + xs.length := by
  induction xs with
  | nil => intro b; simp
  | cons x xs ih =>
    intro b
    rw [List.foldl_cons, ih (heapPush b x), heapPush_length, List.length_cons]
    omega

theorem foldl_heapPush_heapInv (xs : List FnInfo) : ∀ (b : List FnInfo),
    HeapInv b → HeapInv (List.foldl heapPush b xs) := by
  induction xs with
  | nil => intro b h; exact h
  | cons x xs ih => intro b h; exact ih _ (heapPush_heapInv b x h)

theorem heapInv_le_head (l : List FnInfo) (h : HeapInv l) :
    ∀ i, i < l.length → aOf l i ≤ aOf l 0 := by
  intro i
  induction i using Nat.strong_induction_on with
  | _ i ihs =>
    intro hi
    rcases Nat.eq_zero_or_pos i with rfl | h0
    · exact le_refl _
    · have hpar : par i < i := by unfold par; omega
      exact le_trans (h i h0 hi) (ihs (par i) hpar (by omega))

/-! ### Strip lemmas -/

theorem stripComponents_append (bs cs : List String) :
    stripComponents bs (bs ++ cs) = some cs := by
  induction bs with
  | nil => rfl
  | cons b bs ih =>
    rw [List.cons_append, show stripComponents (b :: bs) (b :: (bs ++ cs))
        = if b = b then stripComponents bs (bs ++ cs) else none from rfl, if_pos rfl]
    exact ih

theorem stripComponents_eq_some (bs : List String) : ∀ (ps cs : List String),
    stripComponents bs ps = some cs → ps = bs ++ cs := by
  induction bs with
  | nil =>
    intro ps cs h
    simp only [stripComponents, Option.some_inj] at h
    simp [h]
  | cons b bs ih =>
    intro ps cs h
    cases ps with
    | nil => exact absurd h (by simp [stripComponents])
    | cons p ps =>
      rw [show stripComponents (b :: bs) (p :: ps)
          = if b = p then stripComponents bs ps else none from rfl] at h
      split at h
      · rename_i hbp
        subst hbp
        rw [List.cons_append, ih ps cs h]
      · exact absurd h (by simp)

theorem stripRoot_eq_some (base p r : RPath) (h : stripRoot base p = some r) :
    r.absolute = false ∧ p.components = base.components ++ r.components := by
  unfold stripRoot at h
  split at h
  · cases hsc : stripComponents base.components p.components with
    | none => rw [hsc] at h; exact absurd h (by simp)
    | some cs =>
      rw [hsc] at h
      have h2 : some (RPath.mk false cs) = some r := h
      have h3 : RPath.mk false cs = r := by injection h2
      rw [← h3]
      exact ⟨rfl, stripComponents_eq_some base.components p.components cs hsc⟩
  · exact absurd h (by simp)

theorem stripRoot_of_append (base : RPath) (suffix : List String)
    (p : RPath) (hab : p.absolute = base.absolute)
    (hc : p.components = base.components ++ suffix) :
    stripRoot base p = some ⟨false, suffix⟩ := by
  unfold stripRoot
  rw [if_pos hab.symm, hc, stripComponents_append]
  rfl

/-! ### Walk lemmas -/

mutual
theorem walkAt_ok_sub (p : RPath) (n : FSNode) : ∀ (q : RPath) (m : FSNode),
    Except.ok (q, m) ∈ walkAt p n →
    q.absolute = p.absolute ∧ ∃ suffix, q.components = p.components ++ suffix := by
  cases n with
  | broken name =>
    intro q m hmem
    simp [walkAt] at hmem
  | file name data =>
    intro q m hmem
    simp only [walkAt, List.mem_singleton, Except.ok.injEq, Prod.mk.injEq] at hmem
    rw [← hmem.1]
    exact ⟨rfl, [], by simp⟩
  | dir name children =>
    intro q m hmem
    rw [walkAt] at hmem
    rcases List.mem_cons.mp hmem with heq | htail
    · have h1 : (q, m) = (p, FSNode.dir name children) := by
        injection heq with h1
      have hq : q = p := congrArg Prod.fst h1
      rw [hq]
      exact ⟨rfl, [], by simp⟩
    · exact walkList_ok_sub p children q m htail
theorem walkList_ok_sub (p : RPath) (ns : List FSNode) : ∀ (q : RPath) (m : FSNode),
    Except.ok (q, m) ∈ walkList p ns →
    q.absolute = p.absolute ∧ ∃ suffix, q.components = p.components ++ suffix := by
  cases ns with
  | nil =>
    intro q m hmem
    simp [walkList] at hmem
  | cons c rest =>
    intro q m hmem
    rw [walkList] at hmem
    rcases List.mem_append.mp hmem with hleft | hright
    · obtain ⟨hab, suffix, hsuf⟩ := walkAt_ok_sub (p.child c.nodeName) c q m hleft
      refine ⟨hab, c.nodeName :: suffix, ?_⟩
      rw [hsuf]
      simp [RPath.child]
    · exact walkList_ok_sub p rest q m hright
end

/-! ### Scanned entry lemmas -/

theorem scanned_sub (d : RPath) (root : FSNode) (p : RPath) (n : FSNode)
    (h : (p, n) ∈ scanned d root) :
    Except.ok (p, n) ∈ walkAt d root ∧ fileExtension p = some "rs" := by
  unfold scanned at h
  have h1 := List.mem_of_mem_filter h
  have h2 := List.of_mem_filter h
  rw [List.mem_filterMap] at h1
  obtain ⟨x, hx, hxo⟩ := h1
  cases x with
  | ok v =>
    simp only [Except.toOption, Option.some_inj] at hxo
    rw [hxo] at hx
    exact ⟨hx, by simpa using h2⟩
  | error e => simp [Except.toOption] at hxo

theorem stripRoot_scanned (d : RPath) (root : FSNode) (p : RPath) (n : FSNode)
    (h : (p, n) ∈ scanned d root) :
    ∃ suffix, p.components = d.components ++ suffix ∧
      stripRoot d p = some ⟨false, suffix⟩ := by
  obtain ⟨hw, _⟩ := scanned_sub d root p n h
  obtain ⟨hab, suffix, hsuf⟩ := walkAt_ok_sub d root p n hw
  exact ⟨suffix, hsuf, stripRoot_of_append d suffix p hab hsuf⟩

/-! ### Except bind helpers -/

theorem exbind_ok (a : List FnInfo × Nat)
    (f : List FnInfo × Nat → Except String (List FnInfo × Nat)) :
    (Except.ok a >>= f : Except String (List FnInfo × Nat)) = f a := rfl

theorem exbind_error (msg : String)
    (f : List FnInfo × Nat → Except String (List FnInfo × Nat)) :
    (Except.error msg >>= f : Except String (List FnInfo × Nat)) = Except.error msg := rfl

/-! ### Characterization of the match fold -/

theorem foldlM_stepMatch_ok (base path : RPath) (t : Nat) (ms : List QueryMatch) :
    ∀ (b : List FnInfo) (k : Nat) (b2 : List FnInfo) (k2 : Nat),
    List.foldlM (stepMatch base path t) (b, k) ms = .ok (b2, k2) →
    b2 = List.foldl heapPush b (ms.filterMap (keptRecord base path t)) ∧
    k2 = k + (ms.filterMap (keptRecord base path t)).length := by
  induction ms with
  | nil =>
    intro b k b2 k2 h
    rw [List.foldlM_nil] at h
    have h1 : Except.ok (b, k) = Except.ok (b2, k2) := h
    have h2 : (b, k) = (b2, k2) := by injection h1
    have hb : b = b2 := congrArg Prod.fst h2
    have hk : k = k2 := congrArg Prod.snd h2
    subst hb
    subst hk
    simp
  | cons m ms ih =>
    intro b k b2 k2 h
    rw [List.foldlM_cons] at h
    obtain ⟨no, po⟩ := m
    cases no with
    | none =>
      have hs : stepMatch base path t (b, k) ⟨none, po⟩ = Except.ok (b, k) := by
        cases po <;> rfl
      have hkept : keptRecord base path t ⟨none, po⟩ = none := by
        cases po <;> rfl
      rw [hs, exbind_ok] at h
      rw [List.filterMap_cons_none hkept]
      exact ih b k b2 k2 h
    | some name =>
      cases po with
      | none =>
        have hs : stepMatch base path t (b, k) ⟨some name, none⟩ = Except.ok (b, k) := rfl
        have hkept : keptRecord base path t ⟨some name, none⟩ = none := rfl
        rw [hs, exbind_ok] at h
        rw [List.filterMap_cons_none hkept]
        exact ih b k b2 k2 h
      | some ps =>
        cases hstrip : stripRoot base path with
        | none =>
          have hs : stepMatch base path t (b, k) ⟨some name, some ps⟩ =
              Except.error "strip panic" := by
            simp [stepMatch, hstrip]
          rw [hs, exbind_error] at h
          exact absurd h (by simp)
        | some rel =>
          by_cases hlt : t < count_parameters ps.childKinds
          · have hs : stepMatch base path t (b, k) ⟨some name, some ps⟩ =
                Except.ok (heapPush b
                  (FnInfo.mk rel name (count_parameters ps.childKinds) (ps.startRow + 1)),
                  k + 1) := by
              simp [stepMatch, hstrip, hlt]
            have hkept : keptRecord base path t ⟨some name, some ps⟩ =
                some (FnInfo.mk rel name (count_parameters ps.childKinds) (ps.startRow + 1)) := by
              simp [keptRecord, hstrip, hlt]
            rw [hs, exbind_ok] at h
            obtain ⟨h1, h2⟩ := ih _ _ _ _ h
            rw [List.filterMap_cons_some hkept]
            refine ⟨by rw [h1, List.foldl_cons], ?_⟩
            rw [h2, List.length_cons]
            omega
          · have hs : stepMatch base path t (b, k) ⟨some name, some ps⟩ =
                Except.ok (b, k) := by
              simp [stepMatch, hstrip, hlt]
            have hkept : keptRecord base path t ⟨some name, some ps⟩ = none := by
              simp [keptRecord, hstrip, hlt]
            rw [hs, exbind_ok] at h
            rw [List.filterMap_cons_none hkept]
            exact ih b k b2 k2 h

theorem process_file_ok (d : RPath) (e : RPath × FSNode) (t : Nat) (b : List FnInfo)
    (b2 : List FnInfo) (k2 : Nat)
    (h : process_file d e.1 e.2 t b = .ok (b2, k2)) :
    b2 = List.foldl heapPush b (fileRetained d t e) ∧
    k2 = (fileRetained d t e).length := by
  unfold process_file at h
  split at h
  · exact absurd h (by simp)
  · rename_i fd hr
    split at h
    · exact absurd h (by simp)
    · rename_i ms hp
      obtain ⟨h1, h2⟩ := foldlM_stepMatch_ok d e.1 t ms b 0 b2 k2 h
      have hfr : fileRetained d t e = ms.filterMap (keptRecord d e.1 t) := by
        simp only [fileRetained, hr, hp]
      rw [hfr]
      exact ⟨h1, by omega⟩

/-! ### Characterization of the entry fold -/

theorem foldlM_stepEntry_ok (d : RPath) (t : Nat) (es : List (RPath × FSNode)) :
    ∀ (b : List FnInfo) (k : Nat) (b2 : List FnInfo) (k2 : Nat),
    List.foldlM (stepEntry d t) (b, k) es = .ok (b2, k2) →
    b2 = List.foldl heapPush b (allRetained d t es) ∧
    k2 = k + (allRetained d t es).length := by
  induction es with
  | nil =>
    intro b k b2 k2 h
    rw [List.foldlM_nil] at h
    have h1 : Except.ok (b, k) = Except.ok (b2, k2) := h
    have h2 : (b, k) = (b2, k2) := by injection h1
    have hb : b = b2 := congrArg Prod.fst h2
    have hk : k = k2 := congrArg Prod.snd h2
    subst hb
    subst hk
    simp [allRetained]
  | cons e es ih =>
    intro b k b2 k2 h
    rw [List.foldlM_cons] at h
    cases hpf : process_file d e.1 e.2 t b with
    | error msg =>
      have hs : stepEntry d t (b, k) e = Except.error msg := by
        simp [stepEntry, hpf]
      rw [hs, exbind_error] at h
      exact absurd h (by simp)
    | ok bk =>
      obtain ⟨b1, k1⟩ := bk
      have hs : stepEntry d t (b, k) e = Except.ok (b1, k + k1) := by
        simp [stepEntry, hpf]
      rw [hs, exbind_ok] at h
      obtain ⟨hc1, hc2⟩ := process_file_ok d e t b b1 k1 hpf
      obtain ⟨hd1, hd2⟩ := ih b1 (k + k1) b2 k2 h
      have hall : allRetained d t (e :: es) = fileRetained d t e ++ allRetained d t es := rfl
      constructor
      · rw [hd1, hc1, hall, List.foldl_append]
      · rw [hd2, hall, List.length_append]
        omega

theorem mainScan_ok (d : RPath) (root : FSNode) (t : Nat) (b : List FnInfo) (c : Nat)
    (h : mainScan d root t = .ok (b, c)) :
    b = List.foldl heapPush [] (allRetained d t (scanned d root)) ∧
    c = (allRetained d t (scanned d root)).length := by
  unfold mainScan at h
  have := foldlM_stepEntry_ok d t (scanned d root) [] 0 b c h
  simpa using this

/-! ### Retained record lemmas -/

theorem keptRecord_some (base path : RPath) (t : Nat) (m : QueryMatch) (r : FnInfo)
    (h : keptRecord base path t m = some r) :
    t < r.arity ∧ stripRoot base path = some r.path := by
  obtain ⟨no, po⟩ := m
  cases no with
  | none => exact absurd h (by simp [keptRecord])
  | some name =>
    cases po with
    | none => exact absurd h (by simp [keptRecord])
    | some ps =>
      cases hstrip : stripRoot base path with
      | none =>
        have : keptRecord base path t ⟨some name, some ps⟩ = none := by
          simp [keptRecord, hstrip]
        exact absurd (this ▸ h) (by simp)
      | some rel =>
        by_cases hlt : t < count_parameters ps.childKinds
        · have hk : keptRecord base path t ⟨some name, some ps⟩ =
              some (FnInfo.mk rel name (count_parameters ps.childKinds) (ps.startRow + 1)) := by
            simp [keptRecord, hstrip, hlt]
          rw [hk] at h
          have h2 : FnInfo.mk rel name (count_parameters ps.childKinds) (ps.startRow + 1) = r := by
            injection h
          subst h2
          exact ⟨hlt, rfl⟩
        · have hk : keptRecord base path t ⟨some name, some ps⟩ = none := by
            simp [keptRecord, hstrip, hlt]
          exact absurd (hk ▸ h) (by simp)

theorem keptRecord_iff_recordFull (base path : RPath) (t : Nat) (m : QueryMatch) (r : FnInfo) :
    keptRecord base path t m = some r ↔ (recordFull base path m = some r ∧ t < r.arity) := by
  obtain ⟨no, po⟩ := m
  cases no with
  | none => simp [keptRecord, recordFull]
  | some name =>
    cases po with
    | none => simp [keptRecord, recordFull]
    | some ps =>
      cases hstrip : stripRoot base path with
      | none => simp [keptRecord, recordFull, hstrip]
      | some rel =>
        have hrf : recordFull base path ⟨some name, some ps⟩ =
            some (FnInfo.mk rel name (count_parameters ps.childKinds) (ps.startRow + 1)) := by
          simp [recordFull, hstrip]
        by_cases hlt : t < count_parameters ps.childKinds
        · have hk : keptRecord base path t ⟨some name, some ps⟩ =
              some (FnInfo.mk rel name (count_parameters ps.childKinds) (ps.startRow + 1)) := by
            simp [keptRecord, hstrip, hlt]
          rw [hk, hrf]
          constructor
          · intro h
            have h2 : FnInfo.mk rel name (count_parameters ps.childKinds) (ps.startRow + 1) = r := by
              injection h
            exact ⟨h, by rw [← h2]; exact hlt⟩
          · intro h
            exact h.1
        · have hk : keptRecord base path t ⟨some name, some ps⟩ = none := by
            simp [keptRecord, hstrip, hlt]
          rw [hk, hrf]
          constructor
          · intro h
            exact absurd h (by simp)
          · intro h
            have h2 : FnInfo.mk rel name (count_parameters ps.childKinds) (ps.startRow + 1) = r := by
              injection h.1
            rw [← h2] at h
            exact absurd h.2 hlt

theorem mem_allRetained (d : RPath) (t : Nat) (es : List (RPath × FSNode)) (r : FnInfo) :
    r ∈ allRetained d t es ↔ ∃ e ∈ es, r ∈ fileRetained d t e := by
  induction es with
  | nil => simp [allRetained]
  | cons e es ih => simp [allRetained, List.mem_append, ih]

theorem fileRetained_mem (d : RPath) (t : Nat) (e : RPath × FSNode) (r : FnInfo)
    (h : r ∈ fileRetained d t e) :
    ∃ fd ms m, readNode e.2 = .ok fd ∧ fd.parse = some ms ∧ m ∈ ms ∧
      keptRecord d e.1 t m = some r := by
  unfold fileRetained at h
  split at h
  · simp at h
  · rename_i fd hr
    split at h
    · simp at h
    · rename_i ms hp
      obtain ⟨m, hm, hk⟩ := List.mem_filterMap.mp h
      exact ⟨fd, ms, m, hr, hp, hm, hk⟩

theorem allRetained_arity (d : RPath) (t : Nat) (es : List (RPath × FSNode)) (r : FnInfo)
    (h : r ∈ allRetained d t es) : t < r.arity := by
  obtain ⟨e, he, hr⟩ := (mem_allRetained d t es r).mp h
  obtain ⟨fd, ms, m, _, _, _, hk⟩ := fileRetained_mem d t e r hr
  exact (keptRecord_some d e.1 t m r hk).1

/-! ### Error propagation lemmas -/

theorem stepMatch_never_err (base path : RPath) (t : Nat) (rel : RPath)
    (hstrip : stripRoot base path = some rel) (st : List FnInfo × Nat) (m : QueryMatch) :
    ∃ st2, stepMatch base path t st m = .ok st2 := by
  obtain ⟨no, po⟩ := m
  cases no with
  | none => exact ⟨st, by cases po <;> rfl⟩
  | some name =>
    cases po with
    | none => exact ⟨st, rfl⟩
    | some ps =>
      by_cases hlt : t < count_parameters ps.childKinds
      · exact ⟨(heapPush st.1
            (FnInfo.mk rel name (count_parameters ps.childKinds) (ps.startRow + 1)), st.2 + 1),
          by simp [stepMatch, hstrip, hlt]⟩
      · exact ⟨st, by simp [stepMatch, hstrip, hlt]⟩

theorem foldlM_stepMatch_never_err (base path : RPath) (t : Nat) (rel : RPath)
    (hstrip : stripRoot base path = some rel) (ms : List QueryMatch) :
    ∀ st, ∃ st2, List.foldlM (stepMatch base path t) st ms = .ok st2 := by
  induction ms with
  | nil => intro st; exact ⟨st, rfl⟩
  | cons m ms ih =>
    intro st
    obtain ⟨st1, h1⟩ := stepMatch_never_err base path t rel hstrip st m
    obtain ⟨st2, h2⟩ := ih st1
    exact ⟨st2, by rw [List.foldlM_cons, h1, exbind_ok, h2]⟩

theorem stepEntry_parse_poison (d : RPath) (t : Nat) (e0 : RPath × FSNode) (fd : FileData)
    (hr : readNode e0.2 = Except.ok fd) (hp : fd.parse = none) :
    ∀ st : List FnInfo × Nat, ∃ msg, stepEntry d t st e0 = Except.error msg := by
  intro st
  exact ⟨"FAILED TO PARSE file " ++ fd.text, by simp [stepEntry, process_file, hr, hp]⟩

theorem foldlM_stepEntry_poisoned (d : RPath) (t : Nat) : ∀ (es : List (RPath × FSNode))
    (e0 : RPath × FSNode), e0 ∈ es →
    (∀ st : List FnInfo × Nat, ∃ msg, stepEntry d t st e0 = Except.error msg) →
    ∀ st r, List.foldlM (stepEntry d t) st es ≠ Except.ok r := by
  intro es
  induction es with
  | nil =>
    intro e0 he
    simp at he
  | cons y ys ih =>
    intro e0 he hp st r h
    rw [List.foldlM_cons] at h
    cases hy : stepEntry d t st y with
    | error msg =>
      rw [hy, exbind_error] at h
      exact absurd h (by simp)
    | ok st1 =>
      rw [hy, exbind_ok] at h
      rcases List.mem_cons.mp he with rfl | hys
      · obtain ⟨msg, hmsg⟩ := hp st
        rw [hmsg] at hy
        exact absurd hy (by simp)
      · exact ih e0 hys hp st1 r h

theorem foldlM_stepEntry_parse_fatal (d : RPath) (t : Nat) : ∀ (es : List (RPath × FSNode)),
    (∀ e ∈ es, ∃ fd, readNode e.2 = Except.ok fd) →
    (∀ e ∈ es, ∃ rel, stripRoot d e.1 = some rel) →
    (∃ e ∈ es, ∃ fd, readNode e.2 = Except.ok fd ∧ fd.parse = none) →
    ∀ st, ∃ fd, (∃ e ∈ es, readNode e.2 = Except.ok fd ∧ fd.parse = none) ∧
      List.foldlM (stepEntry d t) st es =
        Except.error ("FAILED TO PARSE file " ++ fd.text) := by
  intro es
  induction es with
  | nil =>
    intro _ _ hbad st
    obtain ⟨e, he, _⟩ := hbad
    exact absurd he (by simp)
  | cons y ys ih =>
    intro hreads hstrips hbad st
    obtain ⟨fdy, hry⟩ := hreads y (List.mem_cons_self y ys)
    cases hpy : fdy.parse with
    | none =>
      refine ⟨fdy, ⟨y, List.mem_cons_self y ys, hry, hpy⟩, ?_⟩
      rw [List.foldlM_cons]
      have hs : stepEntry d t st y =
          Except.error ("FAILED TO PARSE file " ++ fdy.text) := by
        simp [stepEntry, process_file, hry, hpy]
      rw [hs, exbind_error]
    | some ms =>
      obtain ⟨rel, hrel⟩ := hstrips y (List.mem_cons_self y ys)
      obtain ⟨st1, h1⟩ := foldlM_stepMatch_never_err d y.1 t rel hrel ms (st.1, 0)
      obtain ⟨b1, k1⟩ := st1
      have hs : stepEntry d t st y = Except.ok (b1, st.2 + k1) := by
        simp [stepEntry, process_file, hry, hpy, h1]
      have hbad2 : ∃ e ∈ ys, ∃ fd, readNode e.2 = Except.ok fd ∧ fd.parse = none := by
        obtain ⟨e, he, fd, hr, hp⟩ := hbad
        rcases List.mem_cons.mp he with rfl | hys
        · rw [hry] at hr
          have hfd : fdy = fd := by injection hr
          rw [← hfd, hpy] at hp
          exact absurd hp (by simp)
        · exact ⟨e, hys, fd, hr, hp⟩
      obtain ⟨fd, ⟨e2, he2, hfd2⟩, hfold⟩ :=
        ih (fun e he => hreads e (List.mem_cons_of_mem y he))
          (fun e he => hstrips e (List.mem_cons_of_mem y he)) hbad2 (b1, st.2 + k1)
      exact ⟨fd, ⟨e2, List.mem_cons_of_mem y he2, hfd2⟩,
        by rw [List.foldlM_cons, hs, exbind_ok, hfold]⟩

/-! ### Concrete example inputs -/

/-- Example scan root path. -/
def exD : RPath := ⟨false, ["root"]⟩

/-- Example match with three parameters, parameter list starting at row 4. -/
def exMatch3 : QueryMatch :=
  ⟨some "foo", some ⟨["(", "parameter", ",", "parameter", ",", "parameter", ")"], 4⟩⟩

/-- Example match with five parameters, parameter list starting at row 9. -/
def exMatch5 : QueryMatch :=
  ⟨some "bar", some ⟨["(", "parameter", ",", "parameter", ",", "parameter", ",",
    "parameter", ",", "parameter", ")"], 9⟩⟩

/-- Example file data: parses, with the three-parameter match first. -/
def exFileData : FileData := ⟨"fn foo", some [exMatch3, exMatch5]⟩

/-- Example source file node. -/
def exFile : FSNode := .file "a.rs" (.ok exFileData)

/-- Example directory tree with a single source file. -/
def exTree : FSNode := .dir "root" [exFile]

/-- Path of the example file as yielded by the walk. -/
def exPath : RPath := ⟨false, ["root", "a.rs"]⟩

/-- Record for the three-parameter match. -/
def exRec3 : FnInfo := ⟨⟨false, ["a.rs"]⟩, "foo", 3, 5⟩

/-- Record for the five-parameter match. -/
def exRec5 : FnInfo := ⟨⟨false, ["a.rs"]⟩, "bar", 5, 10⟩

/-- Example file data whose parse fails. -/
def exBadData : FileData := ⟨"fn bad(", none⟩

/-- Example source file node whose parse fails. -/
def exBadFile : FSNode := .file "bad.rs" (.ok exBadData)

/-- Example directory tree with the failing file. -/
def exBadTree : FSNode := .dir "root" [exBadFile]

/-- Path of the failing file as yielded by the walk. -/
def exBadPath : RPath := ⟨false, ["root", "bad.rs"]⟩

/-! ### Claims -/

/-- C4: a receiver parameter child (kind self_parameter) contributes zero
to the counted arity wherever it occurs among the children, so the arity
with the receiver present equals the arity with it removed; in particular
this holds when it is the first parameter of a method. -/
theorem c4_receiver_not_counted (l1 l2 : List String) :
    count_parameters (l1 ++ "self_parameter" :: l2) = count_parameters (l1 ++ l2) := by
  unfold count_parameters
  rw [List.foldl_append, List.foldl_append, List.foldl_cons]
  simp

/-- C6: when a scanned file reads successfully but the parser yields no
tree, the run aborts: main never returns an ok list of lines, so neither
records nor the summary line are printed; and when every scanned entry
reads successfully, the abort carries the FAILED TO PARSE diagnostic
holding the text of a failing file. -/
theorem c6_parse_failure_aborts (d : RPath) (root : FSNode) (t : Nat)
    (p : RPath) (n : FSNode) (fd0 : FileData)
    (he : (p, n) ∈ scanned d root)
    (hr : readNode n = Except.ok fd0)
    (hp : fd0.parse = none) :
    (∀ lines, main d root t ≠ Except.ok lines) ∧
    ((∀ e ∈ scanned d root, ∃ fd, readNode e.2 = Except.ok fd) →
      ∃ fd, (∃ e ∈ scanned d root, readNode e.2 = Except.ok fd ∧ fd.parse = none) ∧
        main d root t = Except.error ("FAILED TO PARSE file " ++ fd.text)) := by
  constructor
  · intro lines hmain
    unfold main at hmain
    cases hms : mainScan d root t with
    | error msg =>
      rw [hms] at hmain
      simp at hmain
    | ok bc =>
      obtain ⟨b, c⟩ := bc
      have hpoison := foldlM_stepEntry_poisoned d t (scanned d root) (p, n) he
        (stepEntry_parse_poison d t (p, n) fd0 hr hp) ([], 0) (b, c)
      exact hpoison hms
  · intro hreads
    have hstrips : ∀ e ∈ scanned d root, ∃ rel, stripRoot d e.1 = some rel := by
      intro e hee
      obtain ⟨p2, n2⟩ := e
      obtain ⟨suf, _, hs⟩ := stripRoot_scanned d root p2 n2 hee
      exact ⟨_, hs⟩
    obtain ⟨fd, hfd, hfold⟩ := foldlM_stepEntry_parse_fatal d t (scanned d root)
      hreads hstrips ⟨(p, n), he, fd0, hr, hp⟩ ([], 0)
    refine ⟨fd, hfd, ?_⟩
    have hms : mainScan d root t = Except.error ("FAILED TO PARSE file " ++ fd.text) := hfold
    unfold main
    rw [hms]

/-- C6 witness: the conclusion at a concrete one-file tree whose file
cannot be parsed. -/
theorem c6_parse_failure_aborts_witness :
    (∀ lines, main exD exBadTree 0 ≠ Except.ok lines) ∧
    ((∀ e ∈ scanned exD exBadTree, ∃ fd, readNode e.2 = Except.ok fd) →
      ∃ fd, (∃ e ∈ scanned exD exBadTree, readNode e.2 = Except.ok fd ∧ fd.parse = none) ∧
        main exD exBadTree 0 = Except.error ("FAILED TO PARSE file " ++ fd.text)) :=
  c6_parse_failure_aborts exD exBadTree 0 exBadPath exBadFile exBadData
    (by
      show (exBadPath, exBadFile) ∈ [(exBadPath, exBadFile)]
      exact List.mem_singleton.mpr rfl)
    rfl rfl

/-- C7: every record of a completed scan has a relative path, and that
path is exactly the path of a scanned file with the scan-root components
stripped from the front. -/
theorem c7_paths_relative (d : RPath) (root : FSNode) (t : Nat) (b : List FnInfo) (c : Nat)
    (h : mainScan d root t = .ok (b, c)) :
    ∀ r ∈ b, r.path.absolute = false ∧
      ∃ p n, (p, n) ∈ scanned d root ∧ d.components ++ r.path.components = p.components := by
  obtain ⟨hb, _⟩ := mainScan_ok d root t b c h
  intro r hr
  have hperm : b.Perm (allRetained d t (scanned d root)) := by
    rw [hb]
    simpa using foldl_heapPush_perm (allRetained d t (scanned d root)) []
  have hmem : r ∈ allRetained d t (scanned d root) := hperm.mem_iff.mp hr
  obtain ⟨e, he, hre⟩ := (mem_allRetained d t (scanned d root) r).mp hmem
  obtain ⟨fd, ms, m, _, _, _, hk⟩ := fileRetained_mem d t e r hre
  obtain ⟨_, hstrip⟩ := keptRecord_some d e.1 t m r hk
  obtain ⟨habs, hcomp⟩ := stripRoot_eq_some d e.1 r.path hstrip
  obtain ⟨p2, n2⟩ := e
  exact ⟨habs, p2, n2, he, hcomp.symm⟩

/-- C7 witness: the conclusion for one record of the concrete run. -/
theorem c7_paths_relative_witness :
    exRec3.path.absolute = false ∧
      ∃ p n, (p, n) ∈ scanned exD exTree ∧
        exD.components ++ exRec3.path.components = p.components :=
  c7_paths_relative exD exTree 0 [exRec5, exRec3] 2 rfl exRec3 (by decide)

/-- C8: whenever main returns printed lines, they are the records of the
scan followed by exactly one summary line, and the total in the summary
equals the number of record lines; the summary line is present even when
the record list is empty. -/
theorem c8_summary_counts (d : RPath) (root : FSNode) (t : Nat) (lines : List String)
    (h : main d root t = .ok lines) :
    ∃ b c, mainScan d root t = .ok (b, c) ∧ c = b.length ∧
      lines = b.map formatFnInfo ++ [summaryLine c t] := by
  unfold main at h
  cases hms : mainScan d root t with
  | error msg =>
    rw [hms] at h
    simp at h
  | ok bc =>
    obtain ⟨b, c⟩ := bc
    rw [hms] at h
    have h2 : Except.ok (b.map formatFnInfo ++ [summaryLine c t]) = Except.ok lines := h
    have h3 : b.map formatFnInfo ++ [summaryLine c t] = lines := by injection h2
    obtain ⟨hb, hc⟩ := mainScan_ok d root t b c hms
    refine ⟨b, c, rfl, ?_, h3.symm⟩
    rw [hc, hb, foldl_heapPush_length]
    simp

/-- C8 witness: the conclusion at the concrete two-record run. -/
theorem c8_summary_counts_witness :
    ∃ b c, mainScan exD exTree 0 = Except.ok (b, c) ∧ c = b.length ∧
      [formatFnInfo exRec5, formatFnInfo exRec3, summaryLine 2 0] =
        b.map formatFnInfo ++ [summaryLine c 0] :=
  c8_summary_counts exD exTree 0
    [formatFnInfo exRec5, formatFnInfo exRec3, summaryLine 2 0] rfl

/-- C9: the run is a deterministic function of the directory tree, the
root path and the threshold: equal inputs give identical printed output,
byte for byte. -/
theorem c9_deterministic (d1 d2 : RPath) (r1 r2 : FSNode) (t1 t2 : Nat)
    (hd : d1 = d2) (hr : r1 = r2) (ht : t1 = t2) :
    main d1 r1 t1 = main d2 r2 t2 := by
  subst hd
  subst hr
  subst ht
  rfl

/-- C9 witness: identical output at a concrete repeated run. -/
theorem c9_deterministic_witness : main exD exTree 0 = main exD exTree 0 :=
  c9_deterministic exD exD exTree exTree 0 0 rfl rfl rfl

/-- C10: every ok entry yielded by the walk has the root path as a
prefix, so stripping the root from it succeeds and the unwrap in
process_file never panics on a walked path. -/
theorem c10_strip_never_panics (d : RPath) (root : FSNode) (p : RPath) (n : FSNode)
    (h : Except.ok (p, n) ∈ walkAt d root) :
    (stripRoot d p).isSome = true := by
  obtain ⟨hab, suffix, hsuf⟩ := walkAt_ok_sub d root p n h
  rw [stripRoot_of_append d suffix p hab hsuf]
  rfl

/-- C10 witness: the strip succeeds on the concrete walked file path. -/
theorem c10_strip_never_panics_witness : (stripRoot exD exPath).isSome = true :=
  c10_strip_never_panics exD exTree exPath exFile
    (by
      show Except.ok (exPath, exFile) ∈
        [Except.ok (exD, exTree), Except.ok (exPath, exFile)]
      exact List.mem_cons_of_mem _ (List.mem_singleton.mpr rfl))

/-- C1 counterexample: on a file whose matches have arities 3 and 5 with
threshold 0, the scan result lists the arity-5 record first and then the
arity-3 record, so the printed sequence of parameter counts is 5 then 3,
which is not non-decreasing. -/
theorem c1_report_order_counterexample :
    mainScan exD exTree 0 = Except.ok ([exRec5, exRec3], 2) ∧
    ¬ exRec5.arity ≤ exRec3.arity :=
  ⟨rfl, by decide⟩

/-- C1 amended: the records are printed in the backing-vector order of
the max-heap, which is in general not ascending by parameter count; the
order guarantees only that the first record printed has a maximal
parameter count among all printed records. -/
theorem c1_first_record_max (d : RPath) (root : FSNode) (t : Nat)
    (b : List FnInfo) (c : Nat) (h : mainScan d root t = .ok (b, c)) :
    ∀ r ∈ b, r.arity ≤ (b.headD default).arity := by
  obtain ⟨hb, _⟩ := mainScan_ok d root t b c h
  have hinv : HeapInv b := by
    rw [hb]
    apply foldl_heapPush_heapInv
    intro i h0 hl
    rw [List.length_nil] at hl
    omega
  intro r hr
  obtain ⟨i, hi, hgi⟩ := List.mem_iff_getElem.mp hr
  have hai : aOf b i = r.arity := by
    unfold aOf
    rw [List.getD_eq_getElem b default hi, hgi]
  have ha0 : aOf b 0 = (b.headD default).arity := by
    unfold aOf
    rw [getD_zero_headD]
  rw [← hai, ← ha0]
  exact heapInv_le_head b hinv i hi

/-- C1 witness: the bound at the concrete two-record run. -/
theorem c1_first_record_max_witness :
    exRec3.arity ≤ ([exRec5, exRec3].headD default).arity :=
  c1_first_record_max exD exTree 0 [exRec5, exRec3] 2 rfl exRec3 (by decide)

/-- C2: in a completed scan, every reported record has arity strictly
above the threshold, and a match of a scanned file that yields a record
(both captures present) appears in the report exactly when its counted
arity is strictly above the threshold; a match with arity equal to the
threshold is dropped, and none with arity above it is omitted. -/
theorem c2_threshold_filter (d : RPath) (root : FSNode) (t : Nat) (b : List FnInfo) (c : Nat)
    (p : RPath) (n : FSNode) (fd : FileData) (ms : List QueryMatch) (m : QueryMatch)
    (r : FnInfo)
    (hrun : mainScan d root t = .ok (b, c))
    (he : (p, n) ∈ scanned d root)
    (hread : readNode n = .ok fd)
    (hparse : fd.parse = some ms)
    (hm : m ∈ ms)
    (hrec : recordFull d p m = some r) :
    (∀ r2 ∈ b, t < r2.arity) ∧ (r ∈ b ↔ t < r.arity) := by
  obtain ⟨hb, _⟩ := mainScan_ok d root t b c hrun
  have hperm : b.Perm (allRetained d t (scanned d root)) := by
    rw [hb]
    simpa using foldl_heapPush_perm (allRetained d t (scanned d root)) []
  constructor
  · intro r2 hr2
    exact allRetained_arity d t _ r2 (hperm.mem_iff.mp hr2)
  · constructor
    · intro hrb
      exact allRetained_arity d t _ r (hperm.mem_iff.mp hrb)
    · intro hlt
      have hkept : keptRecord d p t m = some r :=
        (keptRecord_iff_recordFull d p t m r).mpr ⟨hrec, hlt⟩
      have hfile : r ∈ fileRetained d t (p, n) := by
        simp only [fileRetained, hread, hparse]
        exact List.mem_filterMap.mpr ⟨m, hm, hkept⟩
      have hmem : r ∈ allRetained d t (scanned d root) :=
        (mem_allRetained d t (scanned d root) r).mpr ⟨(p, n), he, hfile⟩
      exact hperm.mem_iff.mpr hmem

/-- C2 witness: the conclusion at the concrete run, for the arity-3
match against threshold 0. -/
theorem c2_threshold_filter_witness :
    (∀ r2 ∈ [exRec5, exRec3], (0 : Nat) < r2.arity) ∧
    (exRec3 ∈ [exRec5, exRec3] ↔ (0 : Nat) < exRec3.arity) :=
  c2_threshold_filter exD exTree 0 [exRec5, exRec3] 2 exPath exFile exFileData
    [exMatch3, exMatch5] exMatch3 exRec3 rfl
    (by
      show (exPath, exFile) ∈ [(exPath, exFile)]
      exact List.mem_singleton.mpr rfl)
    rfl rfl (by decide) rfl

/-- C3 counterexample: a parameter list whose single non-receiver
parameter child is a variadic marker is counted as arity 0 by the code,
while the spec counting rule gives it arity 1. -/
theorem c3_variadic_counterexample :
    count_parameters ["(", "variadic_parameter", ")"] = 0 ∧
    specParamCount ["(", "variadic_parameter", ")"] = 1 ∧
    count_parameters ["(", "variadic_parameter", ")"] ≠
      specParamCount ["(", "variadic_parameter", ")"] := by
  refine ⟨rfl, rfl, ?_⟩
  decide

/-- C3 amended: the counted arity of a parameter list equals the number
of immediate children whose kind is exactly parameter; the receiver and
every other child kind, variadic markers included, contribute zero. -/
theorem c3_parameter_kind_count (childKinds : List String) :
    count_parameters childKinds = childKinds.countP (fun k => k == "parameter") := by
  have aux : ∀ (l : List String) (n : Nat),
      l.foldl
        (fun count kind =>
          if kind == "self_parameter" then count
          else if kind == "parameter" then count + 1
          else count) n = n + l.countP (fun k => k == "parameter") := by
    intro l
    induction l with
    | nil => intro n; simp
    | cons k l ih =>
      intro n
      rw [List.foldl_cons, List.countP_cons]
      cases h1 : (k == "self_parameter") with
      | true =>
        have hk : k = "self_parameter" := beq_iff_eq.mp h1
        subst hk
        rw [if_pos rfl, if_neg (by decide), ih n, Nat.add_zero]
      | false =>
        cases h2 : (k == "parameter") with
        | true =>
          rw [if_neg (by decide), if_pos rfl, if_pos rfl, ih (n + 1)]
          omega
        | false =>
          rw [if_neg (by decide), if_neg (by decide), if_neg (by decide), ih n,
            Nat.add_zero]
  unfold count_parameters
  rw [aux childKinds 0, Nat.zero_add]

/-- C5 counterexample: a run over a tree holding one matching source
file whose contents cannot be read aborts with the read error instead of
skipping the file. -/
theorem c5_read_error_counterexample :
    main exD (FSNode.dir "root" [FSNode.file "x.rs" (Except.error ())]) 0 =
      Except.error "io error" := rfl

/-- Walk of an appended child list splits as the two walks. -/
theorem walkList_append (p : RPath) (xs : List FSNode) : ∀ ys,
    walkList p (xs ++ ys) = walkList p xs ++ walkList p ys := by
  induction xs with
  | nil => intro ys; rfl
  | cons c rest ih =>
    intro ys
    rw [List.cons_append, walkList, walkList, ih, List.append_assoc]

/-- Removal of one walk-failure entry somewhere in the tree: the first
constructor removes a broken child of a directory at any depth reached
through the second constructor. -/
inductive DropBroken : FSNode → FSNode → Prop where
  | here (name bname : String) (pre post : List FSNode) :
      DropBroken (.dir name (pre ++ .broken bname :: post)) (.dir name (pre ++ post))
  | deeper (name : String) (pre post : List FSNode) (c c2 : FSNode) :
      DropBroken c c2 →
      DropBroken (.dir name (pre ++ c :: post)) (.dir name (pre ++ c2 :: post))

/-- Two scanned entries the entry loop cannot tell apart: same path and
same read result (stepEntry looks at nothing else of the node). -/
def EntryEquiv (e e2 : RPath × FSNode) : Prop :=
  e.1 = e2.1 ∧ readNode e.2 = readNode e2.2

theorem dropBroken_nodeName (c c2 : FSNode) (h : DropBroken c c2) :
    c.nodeName = c2.nodeName := by
  cases h <;> rfl

theorem entryEquiv_refl (l : List (RPath × FSNode)) : List.Forall₂ EntryEquiv l l := by
  induction l with
  | nil => exact List.Forall₂.nil
  | cons x l ih => exact List.Forall₂.cons ⟨rfl, rfl⟩ ih

theorem entryEquiv_append : ∀ (l1 l3 l2 l4 : List (RPath × FSNode)),
    List.Forall₂ EntryEquiv l1 l3 → List.Forall₂ EntryEquiv l2 l4 →
    List.Forall₂ EntryEquiv (l1 ++ l2) (l3 ++ l4) := by
  intro l1 l3 l2 l4 h1 h2
  induction h1 with
  | nil => simpa using h2
  | cons ha hl ih =>
    rw [List.cons_append, List.cons_append]
    exact List.Forall₂.cons ha ih

theorem entryEquiv_filter : ∀ (l l2 : List (RPath × FSNode)),
    List.Forall₂ EntryEquiv l l2 →
    List.Forall₂ EntryEquiv
      (l.filter (fun pr => fileExtension pr.1 == some "rs"))
      (l2.filter (fun pr => fileExtension pr.1 == some "rs")) := by
  intro l l2 h
  induction h with
  | nil => exact List.Forall₂.nil
  | cons ha hl ih =>
    rename_i a b l3 l4
    cases hb : (fileExtension b.1 == some "rs") with
    | true =>
      have ha1 : (fileExtension a.1 == some "rs") = true := by rw [ha.1]; exact hb
      rw [List.filter_cons, List.filter_cons]
      simp only [ha1, hb, if_pos]
      exact List.Forall₂.cons ha ih
    | false =>
      have ha1 : (fileExtension a.1 == some "rs") = false := by rw [ha.1]; exact hb
      rw [List.filter_cons, List.filter_cons]
      simp only [ha1, hb, Bool.false_eq_true, if_false]
      exact ih

theorem stepEntry_congr (d : RPath) (t : Nat) (st : List FnInfo × Nat)
    (e e2 : RPath × FSNode) (h : EntryEquiv e e2) :
    stepEntry d t st e = stepEntry d t st e2 := by
  obtain ⟨h1, h2⟩ := h
  unfold stepEntry process_file
  rw [h1, h2]

theorem foldlM_stepEntry_congr (d : RPath) (t : Nat) :
    ∀ (es es2 : List (RPath × FSNode)), List.Forall₂ EntryEquiv es es2 →
    ∀ st, List.foldlM (stepEntry d t) st es = List.foldlM (stepEntry d t) st es2 := by
  intro es es2 h
  induction h with
  | nil => intro st; rfl
  | cons ha hl ih =>
    rename_i a b l1 l2
    intro st
    rw [List.foldlM_cons, List.foldlM_cons, stepEntry_congr d t st a b ha]
    cases hstep : stepEntry d t st b with
    | error msg => rw [exbind_error, exbind_error]
    | ok st1 =>
      rw [exbind_ok, exbind_ok]
      exact ih st1

theorem dropBroken_walk (n n2 : FSNode) (h : DropBroken n n2) : ∀ (p : RPath),
    List.Forall₂ EntryEquiv ((walkAt p n).filterMap Except.toOption)
      ((walkAt p n2).filterMap Except.toOption) := by
  induction h with
  | here name bname pre post =>
    intro p
    have hwb : walkAt (p.child (FSNode.broken bname).nodeName) (FSNode.broken bname) =
        [Except.error ()] := rfl
    have hl1 : walkAt p (FSNode.dir name (pre ++ FSNode.broken bname :: post)) =
        Except.ok (p, FSNode.dir name (pre ++ FSNode.broken bname :: post)) ::
          (walkList p pre ++ ([Except.error ()] ++ walkList p post)) := by
      rw [walkAt, walkList_append, walkList, hwb]
    have hl2 : walkAt p (FSNode.dir name (pre ++ post)) =
        Except.ok (p, FSNode.dir name (pre ++ post)) ::
          (walkList p pre ++ walkList p post) := by
      rw [walkAt, walkList_append]
    rw [hl1, hl2]
    rw [List.filterMap_cons_some (show Except.toOption
      (Except.ok (p, FSNode.dir name (pre ++ FSNode.broken bname :: post))) =
        some (p, FSNode.dir name (pre ++ FSNode.broken bname :: post)) from rfl)]
    rw [List.filterMap_cons_some (show Except.toOption
      (Except.ok (p, FSNode.dir name (pre ++ post))) =
        some (p, FSNode.dir name (pre ++ post)) from rfl)]
    rw [List.filterMap_append, List.filterMap_append, List.filterMap_append]
    rw [show ([Except.error ()] : List (Except Unit (RPath × FSNode))).filterMap
      Except.toOption = [] from rfl, List.nil_append]
    exact List.Forall₂.cons ⟨rfl, rfl⟩ (entryEquiv_refl _)
  | deeper name pre post c c2 hcc ih =>
    intro p
    have hname : c.nodeName = c2.nodeName := dropBroken_nodeName c c2 hcc
    have hl1 : walkAt p (FSNode.dir name (pre ++ c :: post)) =
        Except.ok (p, FSNode.dir name (pre ++ c :: post)) ::
          (walkList p pre ++ (walkAt (p.child c.nodeName) c ++ walkList p post)) := by
      rw [walkAt, walkList_append, walkList]
    have hl2 : walkAt p (FSNode.dir name (pre ++ c2 :: post)) =
        Except.ok (p, FSNode.dir name (pre ++ c2 :: post)) ::
          (walkList p pre ++ (walkAt (p.child c2.nodeName) c2 ++ walkList p post)) := by
      rw [walkAt, walkList_append, walkList]
    rw [hl1, hl2]
    rw [List.filterMap_cons_some (show Except.toOption
      (Except.ok (p, FSNode.dir name (pre ++ c :: post))) =
        some (p, FSNode.dir name (pre ++ c :: post)) from rfl)]
    rw [List.filterMap_cons_some (show Except.toOption
      (Except.ok (p, FSNode.dir name (pre ++ c2 :: post))) =
        some (p, FSNode.dir name (pre ++ c2 :: post)) from rfl)]
    rw [List.filterMap_append, List.filterMap_append, List.filterMap_append,
      List.filterMap_append]
    refine List.Forall₂.cons ⟨rfl, rfl⟩
      (entryEquiv_append _ _ _ _ (entryEquiv_refl _)
        (entryEquiv_append _ _ _ _ ?_ (entryEquiv_refl _)))
    rw [← hname]
    exact ih (p.child c.nodeName)

theorem dropBroken_scanned (d : RPath) (n n2 : FSNode) (h : DropBroken n n2) :
    List.Forall₂ EntryEquiv (scanned d n) (scanned d n2) := by
  unfold scanned
  exact entryEquiv_filter _ _ (dropBroken_walk n n2 h d)

theorem stepEntry_read_poison (d : RPath) (t : Nat) (e0 : RPath × FSNode)
    (hr : readNode e0.2 = Except.error ()) :
    ∀ st : List FnInfo × Nat, ∃ msg, stepEntry d t st e0 = Except.error msg := by
  intro st
  exact ⟨"io error", by simp [stepEntry, process_file, hr]⟩

/-- C5 amended: an entry that fails during the directory walk is
silently skipped wherever it occurs in the tree — removing one such
entry, at any depth, leaves the printed output unchanged, so a walk
failure never aborts the scan; but a matching source file whose
contents cannot be read, anywhere in the scanned tree, is not skipped:
the read error propagates and the run aborts, printing nothing. -/
theorem c5_walk_errors_skipped_read_errors_abort :
    (∀ (d : RPath) (n n2 : FSNode) (t : Nat), DropBroken n n2 →
      main d n t = main d n2 t) ∧
    (∀ (d : RPath) (root : FSNode) (t : Nat) (p : RPath) (n : FSNode),
      (p, n) ∈ scanned d root → readNode n = Except.error () →
      ∀ lines, main d root t ≠ Except.ok lines) := by
  constructor
  · intro d n n2 t h
    have hfold : List.foldlM (stepEntry d t) ([], 0) (scanned d n) =
        List.foldlM (stepEntry d t) ([], 0) (scanned d n2) :=
      foldlM_stepEntry_congr d t (scanned d n) (scanned d n2)
        (dropBroken_scanned d n n2 h) ([], 0)
    unfold main mainScan
    rw [hfold]
  · intro d root t p n he hr lines hmain
    unfold main at hmain
    cases hms : mainScan d root t with
    | error msg =>
      rw [hms] at hmain
      simp at hmain
    | ok bc =>
      have hpoison := foldlM_stepEntry_poisoned d t (scanned d root) (p, n) he
        (stepEntry_read_poison d t (p, n) hr) ([], 0) bc
      exact hpoison hms

/-- C5 witness: the conclusions at concrete inputs — dropping a broken
entry from a two-entry directory leaves the output unchanged, and a run
over a directory holding one matching unreadable file never returns ok
lines. -/
theorem c5_walk_errors_skipped_read_errors_abort_witness :
    (main exD (FSNode.dir "root" [FSNode.broken "b", exFile]) 0 =
      main exD (FSNode.dir "root" [exFile]) 0) ∧
    (∀ lines, main exD (FSNode.dir "root" [FSNode.file "x.rs" (Except.error ())]) 0 ≠
      Except.ok lines) :=
  ⟨c5_walk_errors_skipped_read_errors_abort.1 exD
      (FSNode.dir "root" [FSNode.broken "b", exFile]) (FSNode.dir "root" [exFile]) 0
      (DropBroken.here "root" "b" [] [exFile]),
    fun lines =>
      c5_walk_errors_skipped_read_errors_abort.2 exD
        (FSNode.dir "root" [FSNode.file "x.rs" (Except.error ())]) 0
        (RPath.mk false ["root", "x.rs"]) (FSNode.file "x.rs" (Except.error ()))
        (by
          show (RPath.mk false ["root", "x.rs"], FSNode.file "x.rs" (Except.error ())) ∈
            [(RPath.mk false ["root", "x.rs"], FSNode.file "x.rs" (Except.error ()))]
          exact List.mem_singleton.mpr rfl)
        rfl lines⟩

end ArityScan
